import Mathlib

/-!
Verification of the WinCCToSQL heuristic block decoder.

Shallow embedding of the decoding core shared (near-verbatim) by
`decode_tagcompressed_dc.py`, `export_dc_tags_bulk.py`,
`scripts/decode_tagcompressed_analog.py` and
`scripts/export_analog_tags_bulk.py`.

Modelling conventions:
* a byte buffer is a `List ℕ` of values `< 256` (Python `bytes`);
* timestamps are integers counting milliseconds (`datetime` arithmetic with
  `timedelta(milliseconds=period_ms)` is exact integer-millisecond
  arithmetic);
* IEEE-754 values are modelled exactly: a finite double/single denotes the
  rational it represents, NaN/±inf are `none` (matching the
  `isinstance`/`math.isfinite` checks in the source);
* Python float arithmetic inside the plausibility scorer is modelled by
  exact real/rational arithmetic (`Real.logb`, `Real.log`, `Real.sqrt`,
  exact division), the idealisation standard for a shallow embedding.
-/

namespace WinCC

/-- Little-endian value of a byte list (`struct.unpack("<...")` base). -/
def leNat (bs : List ℕ) : ℕ := bs.foldr (fun b acc => b + 256 * acc) 0

/-- Exact value of 8 bytes read as a little-endian IEEE-754 double
(`struct.unpack_from("<d", b, i)`): `none` for NaN/±inf, otherwise the
rational the bit pattern denotes. -/
def decodeF64 (bs : List ℕ) : Option ℚ :=
  let u : ℕ := leNat bs
  let sgn : ℚ := if u / 2 ^ 63 % 2 = 1 then -1 else 1
  let e : ℕ := u / 2 ^ 52 % 2 ^ 11
  let f : ℕ := u % 2 ^ 52
  if e = 2047 then none
  else if e = 0 then some (sgn * f * (2 : ℚ) ^ (-1074 : ℤ))
  else some (sgn * (2 ^ 52 + f) * (2 : ℚ) ^ ((e : ℤ) - 1075))

/-- Exact value of 4 bytes read as a little-endian IEEE-754 single
(`struct.unpack("<f", ...)`): `none` for NaN/±inf. -/
def decodeF32 (bs : List ℕ) : Option ℚ :=
  let u : ℕ := leNat bs
  let sgn : ℚ := if u / 2 ^ 31 % 2 = 1 then -1 else 1
  let e : ℕ := u / 2 ^ 23 % 2 ^ 8
  let f : ℕ := u % 2 ^ 23
  if e = 255 then none
  else if e = 0 then some (sgn * f * (2 : ℚ) ^ (-149 : ℤ))
  else some (sgn * (2 ^ 23 + f) * (2 : ℚ) ^ ((e : ℤ) - 150))

/-- Signed value of 2 bytes read as a little-endian int16
(`struct.unpack("<h", ...)`). -/
def decodeI16 (bs : List ℕ) : ℤ :=
  let u : ℕ := leNat bs
  (u : ℤ) - (if 2 ^ 15 ≤ u then 2 ^ 16 else 0)

/-- The little-endian double at offset `i` of buffer `b`. -/
def f64at (b : List ℕ) (i : ℕ) : Option ℚ := decodeF64 ((b.drop i).take 8)

/-- `35000.0 <= d <= 55000.0` on the double decoded at offset `i`
(`False` for NaN/±inf, as in Python float comparison). -/
def isSerialAt (b : List ℕ) (i : ℕ) : Bool :=
  match f64at b i with
  | none => false
  | some d => decide (35000 ≤ d ∧ d ≤ 55000)

/-- `find_excel_serial_double(b, search_limit)`: scan offsets
`0 .. min(len(b)-8, search_limit)` (upper bound excluded; empty when
`len(b) ≤ 8`), return the first offset whose 8 bytes decode to a
little-endian double in `[35000.0, 55000.0]`, together with that value;
`None` (here `none`) when no offset qualifies. -/
def find_excel_serial_double (b : List ℕ) (search_limit : ℕ) : Option (ℕ × ℚ) :=
  ((List.range (min (b.length - 8) search_limit)).find? (isSerialAt b)).map
    (fun i => (i, (f64at b i).getD 0))

/-- `take_exact(vals, n)`: `vals[:n] if len(vals) >= n else vals`. -/
def take_exact {α : Type} (vals : List α) (n : ℕ) : List α :=
  if n ≤ vals.length then vals.take n else vals

/-- `decode_float32(payload, n)`: cap at `n` values and at the largest
multiple of 4 bytes; [] when `m <= 0`. -/
def decode_float32 (payload : List ℕ) (n : ℕ) : List (Option ℚ) :=
  let m := min (n * 4) (payload.length - payload.length % 4)
  if m = 0 then []
  else take_exact ((List.range (m / 4)).map
    (fun j => decodeF32 ((payload.drop (4 * j)).take 4))) n

/-- `decode_float64(payload, n)`. -/
def decode_float64 (payload : List ℕ) (n : ℕ) : List (Option ℚ) :=
  let m := min (n * 8) (payload.length - payload.length % 8)
  if m = 0 then []
  else take_exact ((List.range (m / 8)).map
    (fun j => decodeF64 ((payload.drop (8 * j)).take 8))) n

/-- `decode_int16_scaled(payload, n, scale)`: int16 values are always
finite, so every emitted value is a `some`. -/
def decode_int16_scaled (payload : List ℕ) (n : ℕ) (scale : ℚ) : List (Option ℚ) :=
  let m := min (n * 2) (payload.length - payload.length % 2)
  if m = 0 then []
  else take_exact ((List.range (m / 2)).map
    (fun j => some ((decodeI16 ((payload.drop (2 * j)).take 2) : ℚ) * scale))) n

/-- `read_varint_leb128` inner loop: consumes bytes from the front of
`buf` (the source indexes with `i`; we pass the suffix), accumulating
7-bit groups at increasing shifts; returns (result, unread suffix, ok).
`|=` of a chunk shifted wholly above the already-set bits. -/
def read_varint_leb128 (buf : List ℕ) (shift acc : ℕ) : ℕ × List ℕ × Bool :=
  match buf with
  | [] => (acc, [], false)
  | b :: bs =>
    let acc' := acc ||| ((b &&& 0x7F) <<< shift)
    if b &&& 0x80 = 0 then (acc', bs, true)
    else if 63 < shift + 7 then (acc', bs, false)
    else read_varint_leb128 bs (shift + 7) acc'

/-- `zigzag_decode(u) = (u >> 1) ^ -(u & 1)` on Python's unbounded ints:
`x ^ 0 = x` and `x ^ -1 = -x - 1`. -/
def zigzag_decode (u : ℕ) : ℤ :=
  if u % 2 = 0 then (u / 2 : ℕ) else -((u / 2 : ℕ) : ℤ) - 1

/-- Loop body of `decode_varint_delta`: `need` counts the missing outputs
(`len(out) < n`), `budget` the remaining step budget (`steps < max_steps`),
`buf` the unread payload suffix (`i < len(payload)`). -/
def dvd_go (buf : List ℕ) (need budget : ℕ) (base : ℤ) (scale : ℚ) : List ℚ :=
  if h : need = 0 ∨ buf = [] ∨ budget = 0 then []
  else
    let r := read_varint_leb128 buf 0 0
    if r.2.2 = false then []
    else
      let d := zigzag_decode r.1
      if 10 ^ 9 < |d| then []
      else
        let base' := base + d
        if 10 ^ 12 < |base'| then []
        else ((base' : ℚ) * scale) :: dvd_go r.2.1 (need - 1) (budget - 1) base' scale
termination_by buf.length
decreasing_by
  have key : ∀ (bs : List ℕ) (b shift acc : ℕ),
      (read_varint_leb128 (b :: bs) shift acc).2.1.length ≤ bs.length := by
    intro bs
    induction bs with
    | nil =>
      intro b shift acc
      simp only [read_varint_leb128]
      split
      · simp
      · split <;> simp [read_varint_leb128]
    | cons y ys ih =>
      intro b shift acc
      simp only [read_varint_leb128]
      split
      · simp
      · split
        · simp
        · exact le_trans (ih y _ _) (Nat.le_succ _)
  rcases buf with _ | ⟨x, xs⟩
  · exact absurd (Or.inr (Or.inl rfl)) h
  · exact Nat.lt_succ_of_le (key xs x 0 0)

/-- `decode_varint_delta(payload, n, scale)`: step budget
`min(2*len(payload), 4*n + 1024)`. -/
def decode_varint_delta (payload : List ℕ) (n : ℕ) (scale : ℚ) : List ℚ :=
  dvd_go payload n (min (2 * payload.length) (4 * n + 1024)) 0 scale

/-- The sample-emission loop shared by all scripts:
`for v in values: if t >= te: break; write (t, v); t += period_ms`. -/
def emitRows {α : Type} (t te period : ℤ) : List α → List (ℤ × α)
  | [] => []
  | v :: vs => if te ≤ t then [] else (t, v) :: emitRows (t + period) te period vs

/-- One iteration of the Welford loop of `safe_stats`, with the `±1e12`
clipping; state is `(n, mean, M2)`. -/
def welfordStep (s : ℕ × ℚ × ℚ) (v : ℚ) : ℕ × ℚ × ℚ :=
  let v := if (1e12 : ℚ) < v then 1e12 else if v < -(1e12 : ℚ) then -(1e12) else v
  let n := s.1 + 1
  let delta := v - s.2.1
  let mean := s.2.1 + delta / n
  let M2 := s.2.2 + delta * (v - mean)
  (n, mean, M2)

/-- Welford accumulation loop of `safe_stats`; returns `(n, mean, M2)`.
The `isinstance`/`isfinite` skip is vacuous here: the scorer only feeds it
already-filtered finite values. -/
def welford (values : List ℚ) : ℕ × ℚ × ℚ :=
  values.foldl welfordStep (0, 0, 0)

/-- `safe_stats(values)`: `(mean, sd, n_finite)`; `var = M2/(n-1)` (zeroed
when negative, a case impossible in exact arithmetic), `sd = sqrt(var)` when
positive. -/
noncomputable def safe_stats (values : List ℚ) : ℚ × ℝ × ℕ :=
  let w := welford values
  if w.1 ≤ 1 then (w.2.1, 0, w.1)
  else
    let var : ℚ := w.2.2 / ((w.1 : ℚ) - 1)
    let var := if var < 0 then 0 else var
    (w.2.1, if 0 < var then Real.sqrt var else 0, w.1)

/-- `plausibility_score(values, target_n)`.  `none` entries are the
non-finite values the Python filter drops. -/
noncomputable def plausibility_score (values : List (Option ℚ)) (target_n : ℕ) : ℝ :=
  if values = [] then -2
  else
    let finite := values.filterMap id
    let n_total := values.length
    let n_finite := finite.length
    let frac_finite : ℚ := (n_finite : ℚ) / max 1 (n_total : ℚ)
    if frac_finite < 0.90 then (frac_finite : ℝ) - 2
    else
      let s := safe_stats finite
      let var_term : ℝ := Real.logb 10 (s.2.1 + 1e-6)
      let len_over_target : ℚ := (n_total : ℚ) / max 1 (target_n : ℚ)
      let length_penalty : ℝ := -|Real.log ((len_over_target : ℝ) + 1e-9)|
      let mag_penalty : ℝ := if (1e9 : ℚ) < |s.1| then -(0.1 : ℝ) else 0
      (frac_finite : ℝ) + var_term + length_penalty + mag_penalty

/-- The four candidate codecs, in the list order of the source. -/
inductive CodecName
  | float32
  | float64
  | int16_scaled
  | varint_delta
deriving DecidableEq

/-- A scoring-time candidate: codec, decoded values, skip offset. -/
abbrev Cand : Type := CodecName × List (Option ℚ) × ℕ

/-- The header-found candidate grid of the analog scripts: skip 0..8 outer,
codec list order inner (`for skip in range(0, 9): candidates = [...]`). -/
def scanCandidates (b : List ℕ) (header_end exp_n : ℕ) (scale : ℚ) : List Cand :=
  (List.range 9).flatMap (fun skip =>
    let payload := b.drop (header_end + skip)
    [(.float32, decode_float32 payload exp_n, skip),
     (.float64, decode_float64 payload exp_n, skip),
     (.int16_scaled, decode_int16_scaled payload exp_n scale, skip),
     (.varint_delta, (decode_varint_delta payload exp_n scale).map some, skip)])

/-- One update of the selection fold of the header path:
`if best is None or score > best[0]: best = (score, name, vals, skip)`.
Empty candidates are scored and compared like any other. -/
noncomputable def selectStep (exp_n : ℕ) (best : Option (ℝ × Cand)) (c : Cand) :
    Option (ℝ × Cand) :=
  match best with
  | none => some (plausibility_score c.2.1 exp_n, c)
  | some (s, c0) =>
    if plausibility_score c.2.1 exp_n > s then some (plausibility_score c.2.1 exp_n, c)
    else some (s, c0)

/-- The selection fold of the header path over the candidate grid. -/
noncomputable def selectBest (exp_n : ℕ) (cands : List Cand) : Option (ℝ × Cand) :=
  cands.foldl (selectStep exp_n) none

/-- Python `round` (banker's rounding, half to even) on an exact rational. -/
def bankersRound (q : ℚ) : ℤ :=
  let n := ⌊q⌋
  let r := q - n
  if r < 1 / 2 then n else if 1 / 2 < r then n + 1 else if Even n then n else n + 1

/-- The winning fallback candidate: score, codec, values, inferred period,
skip. -/
structure FallbackPick where
  score : ℝ
  name : CodecName
  vals : List (Option ℚ)
  period : ℤ
  skip : ℕ

/-- Header-not-found candidate grid: skip 0..11 outer, codec inner; each
codec is decoded with its own payload-derived cap (`len(payload)//4` etc.,
`10**7` for the varint codec). -/
def fallbackCandidates (b : List ℕ) (scale : ℚ) : List Cand :=
  (List.range 12).flatMap (fun skip =>
    let payload := b.drop skip
    [(.float32, decode_float32 payload (payload.length / 4), skip),
     (.float64, decode_float64 payload (payload.length / 8), skip),
     (.int16_scaled, decode_int16_scaled payload (payload.length / 2) scale, skip),
     (.varint_delta, (decode_varint_delta payload (10 ^ 7) scale).map some, skip)])

/-- One update of the fallback selection fold: skip empty candidates
(`n <= 0`), infer `period = max(1, round(total_ms / max(1, n)))`, keep only
inferred periods in `[50, 60000]` ms, score on `vals[:min(n, 10000)]`
against target `n`, keep the strictly best.  (The `try/except` around the
scorer cannot fire in exact arithmetic and is omitted.) -/
noncomputable def fallbackStep (total_ms : ℤ) (best : Option FallbackPick) (c : Cand) :
    Option FallbackPick :=
  let n : ℕ := c.2.1.length
  if n = 0 then best
  else
    let inferred : ℤ := max 1 (bankersRound ((total_ms : ℚ) / max 1 (n : ℚ)))
    if 50 ≤ inferred ∧ inferred ≤ 60000 then
      let sc := plausibility_score (c.2.1.take (min n 10000)) n
      match best with
      | none => some ⟨sc, c.1, c.2.1, inferred, c.2.2⟩
      | some bp => if sc > bp.score then some ⟨sc, c.1, c.2.1, inferred, c.2.2⟩ else some bp
    else best

/-- Header-not-found selection fold over the fallback candidate grid. -/
noncomputable def fallbackSelect (total_ms : ℤ) (cands : List Cand) : Option FallbackPick :=
  cands.foldl (fallbackStep total_ms) none

/-- Per-block outcome of the analog scripts. -/
inductive AnalogOutcome
  | emitted (rows : List (ℤ × Option ℚ))
  | fallbackEmitted (rows : List (ℤ × Option ℚ))
  | noPlausibleFallback
  | truncatedHeader
  | noPlausibleCodec
deriving DecidableEq

/-- `scale if scale else 1.0` — Python `0.0` is falsy. -/
def effectiveScale (scale : ℚ) : ℚ := if scale = 0 then 1 else scale

/-- `exp_n = max(total_ms // max(1, period_ms), 0)` (Python `//` is floor
division, `Int.fdiv`). -/
def expSamples (total_ms : ℤ) (period : ℕ) : ℕ :=
  (max (Int.fdiv total_ms (max 1 (period : ℤ))) 0).toNat

/-- One block of `scripts/decode_tagcompressed_analog.py` `main` (times in
ms, `total_ms = te - tb`). -/
noncomputable def decode_analog_block (b : List ℕ) (tb te : ℤ) (scale : ℚ) : AnalogOutcome :=
  match find_excel_serial_double b 256 with
  | none =>
    match fallbackSelect (te - tb) (fallbackCandidates b (effectiveScale scale)) with
    | none => .noPlausibleFallback
    | some p => .fallbackEmitted (emitRows tb te p.period p.vals)
  | some (off, _) =>
    if b.length < off + 8 + 4 then .truncatedHeader
    else
      let period : ℕ := leNat ((b.drop (off + 8)).take 4)
      let exp_n : ℕ := expSamples (te - tb) period
      match selectBest exp_n (scanCandidates b (off + 12) exp_n (effectiveScale scale)) with
      | none => .noPlausibleCodec
      | some (_, c) =>
        if c.2.1 = [] then .noPlausibleCodec
        else .emitted (emitRows tb te (period : ℤ) c.2.1)

/-- Forced codec choice of `export_analog_tags_bulk.py` (`--codec` other
than `auto`). -/
inductive ForcedCodec
  | f32
  | f64
  | i16
  | varint
deriving DecidableEq

/-- The single decode of the forced-codec path (payload at skip 0). -/
def decodeForced (fc : ForcedCodec) (payload : List ℕ) (n : ℕ) (scale : ℚ) : List (Option ℚ) :=
  match fc with
  | .f32 => decode_float32 payload n
  | .f64 => decode_float64 payload n
  | .i16 => decode_int16_scaled payload n scale
  | .varint => (decode_varint_delta payload n scale).map some

/-- One block of `export_analog_tags_bulk.py` `main`: `codec = none` is
`auto`; the bulk script passes `scale` to the decoders directly. -/
noncomputable def export_analog_block (codec : Option ForcedCodec) (b : List ℕ)
    (tb te : ℤ) (scale : ℚ) : AnalogOutcome :=
  match find_excel_serial_double b 256 with
  | none =>
    match fallbackSelect (te - tb) (fallbackCandidates b scale) with
    | none => .noPlausibleFallback
    | some p => .fallbackEmitted (emitRows tb te p.period p.vals)
  | some (off, _) =>
    if b.length < off + 8 + 4 then .truncatedHeader
    else
      let period : ℕ := leNat ((b.drop (off + 8)).take 4)
      let exp_n : ℕ := expSamples (te - tb) period
      match codec with
      | some fc =>
        .emitted (emitRows tb te (period : ℤ) (decodeForced fc (b.drop (off + 12)) exp_n scale))
      | none =>
        match selectBest exp_n (scanCandidates b (off + 12) exp_n scale) with
        | none => .noPlausibleCodec
        | some (_, c) =>
          if c.2.1 = [] then .noPlausibleCodec
          else .emitted (emitRows tb te (period : ℤ) c.2.1)

/-- Bit expansion of one payload byte (`(byte >> k) & 1`, k = 0..7 LSB-first,
or `(byte >> (7-k)) & 1` MSB-first). -/
def bitsOfByte (msb : Bool) (byte : ℕ) : List ℕ :=
  if msb then (List.range 8).map (fun k => byte >>> (7 - k) &&& 1)
  else (List.range 8).map (fun k => byte >>> k &&& 1)

/-- Flattening of the digital nested byte/bit loop; the double `break` on
`t >= te` makes the nested loop the emission loop over this flat stream. -/
def digitalBits (payload : List ℕ) (msb : Bool) : List ℕ :=
  payload.flatMap (bitsOfByte msb)

/-- Per-block outcome of the digital scripts. -/
inductive DigitalOutcome
  | emitted (rows : List (ℤ × ℕ))
  | headerNotFound
  | truncatedHeader
deriving DecidableEq

/-- One block of `decode_tagcompressed_dc.py` `main` (also
`export_dc_tags_bulk.py` `decode_block`): header search limit 64, sync skip
0..4 first-fit (default 0 when none fits), bit-stream emission. -/
def decode_dc_block (b : List ℕ) (tb te : ℤ) (msb : Bool) : DigitalOutcome :=
  match find_excel_serial_double b 64 with
  | none => .headerNotFound
  | some (off, _) =>
    if b.length < off + 8 + 4 then .truncatedHeader
    else
      let period : ℕ := leNat ((b.drop (off + 8)).take 4)
      let exp : ℤ := max (Int.fdiv (te - tb) (max 1 (period : ℤ))) 0
      let chosen : ℕ :=
        ((List.range 5).find? (fun extra =>
          decide (exp ≤ max 0 (((b.length : ℤ) - ((off + 12 : ℕ) + (extra : ℕ))) * 8)))).getD 0
      .emitted (emitRows tb te (period : ℤ) (digitalBits (b.drop (off + 12 + chosen)) msb))

/-- Canonical zigzag encoder, inverse of `zigzag_decode` (the spec's
round-trip property quantifies over encoded deltas; the repository contains
only the decoder). -/
def zigzag_encode (d : ℤ) : ℕ :=
  if 0 ≤ d then (2 * d).toNat else (2 * (-d) - 1).toNat

/-- Canonical LEB128 encoder (7 data bits per byte, high bit = continue). -/
def leb128_encode (u : ℕ) : List ℕ :=
  if h : u < 128 then [u]
  else (u % 128 + 128) :: leb128_encode (u / 128)
termination_by u
decreasing_by
  exact Nat.div_lt_self (by omega) (by omega)

/-- Encode a delta sequence: zigzag then LEB128, concatenated. -/
def encode_varint_delta (dels : List ℤ) : List ℕ :=
  dels.flatMap (fun d => leb128_encode (zigzag_encode d))

/-- Running sums of a delta sequence starting from `base`. -/
def runningSums : List ℤ → ℤ → List ℤ
  | [], _ => []
  | d :: ds, b => (b + d) :: runningSums ds (b + d)

/-- Offset `i` of `b` holds a qualifying date-serial double: the window
decodes to a finite double in `[35000.0, 55000.0]`. -/
def serialHit (b : List ℕ) (i : ℕ) : Prop :=
  ∃ d, f64at b i = some d ∧ 35000 ≤ d ∧ d ≤ 55000

/-- The 8 little-endian bytes of the double `40000.0` (a value inside the
date-serial range). -/
def serialBytes : List ℕ := [0, 0, 0, 0, 0, 136, 227, 64]

/-- A 29-byte buffer holding the qualifying double `40000.0` at offsets 5
and 20 and no qualifying double at any earlier offset. -/
def twoSerialBuf : List ℕ :=
  [0, 0, 0, 0, 0] ++ serialBytes ++ [0, 0, 0, 0, 0, 0, 0] ++ serialBytes ++ [0]

/-- A digital block whose header double (40000.0, offset 0) is followed by
the four period bytes 0,0,0,0 — a declared sample period of 0 ms — and one
payload byte `0b00000101`. -/
def dcPeriodZeroBlock : List ℕ := serialBytes ++ [0, 0, 0, 0] ++ [5]

/-- An analog block: header double 40000.0 at offset 0, period bytes
`[232, 3, 0, 0]` (1000 ms), and three zero payload bytes. -/
def analogPeriodBlock : List ℕ := serialBytes ++ [232, 3, 0, 0] ++ [0, 0, 0]

-- ======================================================================
-- Theorems
-- ======================================================================

lemma range_split (i k : ℕ) (h : i ≤ k) :
    List.range k = List.range i ++ List.range' i (k - i) := by
  have happ := List.range'_append 0 i (k - i) 1
  simp only [Nat.one_mul, Nat.zero_add] at happ
  rw [List.range_eq_range', List.range_eq_range', happ]
  congr 1
  omega

lemma range_find?_some {p : ℕ → Bool} {i k : ℕ} (hik : i < k) (hp : p i = true)
    (hj : ∀ j < i, p j = false) : (List.range k).find? p = some i := by
  rw [range_split i k hik.le, List.find?_append]
  have h0 : (List.range i).find? p = none := by
    rw [List.find?_eq_none]
    intro x hx
    simp [hj x (List.mem_range.mp hx)]
  rw [h0]
  have h2 : k - i = (k - i - 1) + 1 := by omega
  rw [h2, List.range'_succ]
  simp [List.find?, hp]

lemma range_find?_iff {p : ℕ → Bool} {k : ℕ} (i : ℕ) :
    (List.range k).find? p = some i ↔ (i < k ∧ p i = true ∧ ∀ j < i, p j = false) := by
  constructor
  · intro h
    have hpi : p i = true := List.find?_some h
    have hik : i < k := List.mem_range.mp (List.mem_of_find?_eq_some h)
    refine ⟨hik, hpi, ?_⟩
    intro j hj
    by_contra hb
    have hpj : p j = true := by
      cases hpm : p j
      · exact absurd hpm hb
      · rfl
    have hex : ∃ m, p m = true := ⟨j, hpj⟩
    have hle : Nat.find hex ≤ j := Nat.find_le hpj
    have hlt : Nat.find hex < i := lt_of_le_of_lt hle hj
    have hfind : (List.range k).find? p = some (Nat.find hex) :=
      range_find?_some (lt_trans hlt hik) (Nat.find_spec hex)
        (fun m hm => by
          cases hpm : p m
          · rfl
          · exact absurd hpm (Nat.find_min hex hm))
    rw [hfind] at h
    have := Option.some.inj h
    omega
  · rintro ⟨h1, h2, h3⟩
    exact range_find?_some h1 h2 h3

lemma isSerialAt_iff {b : List ℕ} {i : ℕ} : isSerialAt b i = true ↔ serialHit b i := by
  unfold isSerialAt serialHit
  cases h : f64at b i with
  | none => simp [h]
  | some d => simp [h]

lemma isSerialAt_false_iff {b : List ℕ} {i : ℕ} :
    isSerialAt b i = false ↔ ¬ serialHit b i := by
  rw [← isSerialAt_iff]
  cases isSerialAt b i <;> simp

lemma find_serial_eq_some_iff {b : List ℕ} {limit i : ℕ} {v : ℚ} :
    find_excel_serial_double b limit = some (i, v) ↔
      (i < min (b.length - 8) limit ∧ f64at b i = some v ∧ 35000 ≤ v ∧ v ≤ 55000 ∧
        ∀ j < i, ¬ serialHit b j) := by
  unfold find_excel_serial_double
  constructor
  · intro h
    obtain ⟨j, hj, hmap⟩ := Option.map_eq_some'.mp h
    obtain ⟨hik, hser, hmin⟩ := (range_find?_iff j).mp hj
    obtain ⟨d, hd, h35, h55⟩ := isSerialAt_iff.mp hser
    have hji : j = i := congrArg Prod.fst hmap
    subst hji
    have hv : v = d := by
      have := congrArg Prod.snd hmap
      simp only at this
      rw [hd] at this
      simpa using this.symm
    subst hv
    exact ⟨hik, hd, h35, h55, fun m hm => isSerialAt_false_iff.mp (hmin m hm)⟩
  · rintro ⟨hik, hd, h35, h55, hmin⟩
    have hser : isSerialAt b i = true := isSerialAt_iff.mpr ⟨v, hd, h35, h55⟩
    have hfind : (List.range (min (b.length - 8) limit)).find? (isSerialAt b) = some i :=
      range_find?_some hik hser (fun j hj => isSerialAt_false_iff.mpr (hmin j hj))
    rw [hfind]
    simp [hd]

lemma find_serial_eq_none_iff {b : List ℕ} {limit : ℕ} :
    find_excel_serial_double b limit = none ↔
      ∀ i < min (b.length - 8) limit, ¬ serialHit b i := by
  unfold find_excel_serial_double
  rw [Option.map_eq_none', List.find?_eq_none]
  constructor
  · intro h i hi
    exact isSerialAt_false_iff.mp (by
      have := h i (List.mem_range.mpr hi)
      cases hx : isSerialAt b i
      · rfl
      · exact absurd hx this)
  · intro h i hi
    simp [isSerialAt_false_iff.mpr (h i (List.mem_range.mp hi))]

/-- C3: `find_excel_serial_double` returns the smallest offset in the scan
range `0 .. min(len(buf)-8, search_limit)` whose 8 bytes decode as a
little-endian IEEE-754 double in `[35000.0, 55000.0]`, together with that
value; `none` when no offset in range qualifies; and on a buffer holding
qualifying doubles at offsets 5 and 20 it returns offset 5. -/
theorem c3_header_search_first_match :
    (∀ (b : List ℕ) (limit i : ℕ) (v : ℚ),
      find_excel_serial_double b limit = some (i, v) ↔
        (i < min (b.length - 8) limit ∧ f64at b i = some v ∧ 35000 ≤ v ∧ v ≤ 55000 ∧
          ∀ j < i, ¬ serialHit b j)) ∧
    (∀ (b : List ℕ) (limit : ℕ),
      find_excel_serial_double b limit = none ↔
        ∀ i < min (b.length - 8) limit, ¬ serialHit b i) ∧
    find_excel_serial_double twoSerialBuf 256 = some (5, 40000) := by
  refine ⟨fun b limit i v => find_serial_eq_some_iff,
          fun b limit => find_serial_eq_none_iff, ?_⟩
  rw [find_serial_eq_some_iff]
  have hlen : twoSerialBuf.length = 29 := by decide
  refine ⟨by rw [hlen]; norm_num, ?_, by norm_num, by norm_num, ?_⟩
  · norm_num [f64at, twoSerialBuf, serialBytes, decodeF64, leNat]
  · intro j hj
    rintro ⟨d, hd, h35, h55⟩
    interval_cases j
    · rw [show f64at twoSerialBuf 0 = some 0 by
        norm_num [f64at, twoSerialBuf, serialBytes, decodeF64, leNat]] at hd
      rw [show d = 0 from (Option.some.inj hd).symm] at h35
      norm_num at h35
    · rw [show f64at twoSerialBuf 1 = some 0 by
        norm_num [f64at, twoSerialBuf, serialBytes, decodeF64, leNat]] at hd
      rw [show d = 0 from (Option.some.inj hd).symm] at h35
      norm_num at h35
    · rw [show f64at twoSerialBuf 2 = some 0 by
        norm_num [f64at, twoSerialBuf, serialBytes, decodeF64, leNat]] at hd
      rw [show d = 0 from (Option.some.inj hd).symm] at h35
      norm_num at h35
    · obtain ⟨d', hd', hneg⟩ : ∃ d', f64at twoSerialBuf 3 = some d' ∧ d' < 0 := by
        norm_num [f64at, twoSerialBuf, serialBytes, decodeF64, leNat]
      rw [hd'] at hd
      rw [show d = d' from (Option.some.inj hd).symm] at h35
      linarith
    · obtain ⟨d', hd', hneg⟩ : ∃ d', f64at twoSerialBuf 4 = some d' ∧ d' < 0 := by
        norm_num [f64at, twoSerialBuf, serialBytes, decodeF64, leNat]
      rw [hd'] at hd
      rw [show d = d' from (Option.some.inj hd).symm] at h35
      linarith

/-- C9: the scan range excludes the window at `len(buf)-8`, so a buffer of
8 or fewer bytes always yields `(None, None)` — even when its 8 bytes
encode a double inside `[35000.0, 55000.0]`. -/
theorem c9_short_buffer_returns_none :
    (∀ (b : List ℕ) (limit : ℕ), b.length ≤ 8 → find_excel_serial_double b limit = none) ∧
    (decodeF64 serialBytes = some 40000 ∧
      ∀ limit : ℕ, find_excel_serial_double serialBytes limit = none) := by
  have hshort : ∀ (b : List ℕ) (limit : ℕ), b.length ≤ 8 →
      find_excel_serial_double b limit = none := by
    intro b limit h
    unfold find_excel_serial_double
    rw [Nat.sub_eq_zero_of_le h]
    simp
  refine ⟨hshort, ?_, fun limit => hshort serialBytes limit (by decide)⟩
  norm_num [serialBytes, decodeF64, leNat]

/-- Witness for C9: applying the short-buffer theorem at the concrete
8-byte qualifying buffer. -/
theorem c9_short_buffer_returns_none_witness :
    find_excel_serial_double serialBytes 64 = none :=
  c9_short_buffer_returns_none.1 serialBytes 64 (by decide)

lemma lor_shiftLeft_eq_add {a c n : ℕ} (h : a < 2 ^ n) : a ||| (c <<< n) = a + c * 2 ^ n := by
  rw [Nat.shiftLeft_eq]
  apply Nat.eq_of_testBit_eq
  intro k
  rw [Nat.testBit_lor, show a + c * 2 ^ n = 2 ^ n * c + a by ring,
      Nat.testBit_mul_pow_two_add c h k, mul_comm c (2 ^ n), Nat.testBit_mul_pow_two]
  by_cases hk : k < n
  · simp [hk, Nat.not_le.mpr hk]
  · have ha : Nat.testBit a k = false :=
      Nat.testBit_eq_false_of_lt
        (lt_of_lt_of_le h (Nat.pow_le_pow_right (by norm_num) (Nat.not_lt.mp hk)))
    simp [hk, Nat.not_lt.mp hk, ha]

lemma land127_eq_mod (x : ℕ) : x &&& 127 = x % 128 := by
  have h := Nat.and_pow_two_sub_one_eq_mod x 7
  norm_num at h
  exact h

lemma land128_eq_zero {x : ℕ} (h : x < 128) : x &&& 128 = 0 := by
  rw [show (128 : ℕ) = 2 ^ 7 by norm_num, Nat.and_two_pow]
  have hb : x.testBit 7 = false := Nat.testBit_eq_false_of_lt (by norm_num; omega)
  simp [hb]

lemma land128_ne_zero {x : ℕ} (h1 : 128 ≤ x) (h2 : x < 256) : x &&& 128 ≠ 0 := by
  rw [show (128 : ℕ) = 2 ^ 7 by norm_num, Nat.and_two_pow]
  have hb : x.testBit 7 = true := by
    rw [Nat.testBit_to_div_mod]
    norm_num
    omega
  simp [hb]

/-- Each call of the varint reader on a non-empty suffix consumes at least
one byte. -/
lemma read_varint_leb128_consumes :
    ∀ (bs : List ℕ) (b shift acc : ℕ),
      (read_varint_leb128 (b :: bs) shift acc).2.1.length ≤ bs.length := by
  intro bs
  induction bs with
  | nil =>
    intro b shift acc
    simp only [read_varint_leb128]
    split
    · simp
    · split <;> simp [read_varint_leb128]
  | cons y ys ih =>
    intro b shift acc
    simp only [read_varint_leb128]
    split
    · simp
    · split
      · simp
      · exact le_trans (ih y _ _) (Nat.le_succ _)

lemma dvd_go_length_le (fuel : ℕ) :
    ∀ (buf : List ℕ) (need budget : ℕ) (base : ℤ) (scale : ℚ),
      buf.length ≤ fuel →
      (dvd_go buf need budget base scale).length ≤ need ∧
      (dvd_go buf need budget base scale).length ≤ budget := by
  induction fuel with
  | zero =>
    intro buf need budget base scale h
    have hb : buf = [] := List.length_eq_zero.mp (Nat.le_zero.mp h)
    subst hb
    rw [dvd_go]
    simp
  | succ f ih =>
    intro buf need budget base scale h
    rw [dvd_go]
    split
    · simp
    · rename_i hcond
      push_neg at hcond
      obtain ⟨hneed, hbuf, hbudget⟩ := hcond
      rcases hrv : read_varint_leb128 buf 0 0 with ⟨u, rest, ok⟩
      simp only [hrv]
      split
      · simp
      · split
        · simp
        · split
          · simp
          · rcases buf with _ | ⟨x, xs⟩
            · exact absurd rfl hbuf
            · have hxs : xs.length ≤ f := by simpa using h
              have hrest : rest.length ≤ f := by
                have hc := read_varint_leb128_consumes xs x 0 0
                rw [hrv] at hc
                exact le_trans hc hxs
              have hih := ih rest (need - 1) (budget - 1) (base + zigzag_decode u) scale hrest
              simp only [List.length_cons]
              omega

/-- C8: `decode_varint_delta` is total and bounded: it returns at most `n`
values and at most `min(2*len(payload), 4n+1024)` values (one per loop
step), and every read of a non-empty payload suffix strictly advances the
payload position. -/
theorem c8_varint_delta_terminates_bounded :
    (∀ (payload : List ℕ) (n : ℕ) (scale : ℚ),
      (decode_varint_delta payload n scale).length ≤ n ∧
      (decode_varint_delta payload n scale).length ≤
        min (2 * payload.length) (4 * n + 1024)) ∧
    (∀ (b : ℕ) (bs : List ℕ) (shift acc : ℕ),
      (read_varint_leb128 (b :: bs) shift acc).2.1.length < (b :: bs).length) := by
  constructor
  · intro payload n scale
    exact dvd_go_length_le payload.length payload n _ 0 scale (le_refl _)
  · intro b bs shift acc
    exact Nat.lt_succ_of_le (read_varint_leb128_consumes bs b shift acc)

lemma zigzag_decode_encode (d : ℤ) : zigzag_decode (zigzag_encode d) = d := by
  unfold zigzag_encode zigzag_decode
  by_cases h : 0 ≤ d
  · rw [if_pos h]
    have h2 : ((2 * d).toNat : ℤ) = 2 * d := Int.toNat_of_nonneg (by omega)
    have heven : (2 * d).toNat % 2 = 0 := by omega
    rw [if_pos heven]
    omega
  · rw [if_neg h]
    have h2 : ((2 * (-d) - 1).toNat : ℤ) = 2 * (-d) - 1 := Int.toNat_of_nonneg (by omega)
    have hodd : (2 * (-d) - 1).toNat % 2 = 1 := by omega
    rw [if_neg (by omega)]
    omega

lemma leb128_encode_ne_nil (u : ℕ) : leb128_encode u ≠ [] := by
  rw [leb128_encode]
  split <;> simp

/-- Reading back the LEB128 encoding of `u` (for `u` below the 63-bit
shift cap) consumes exactly its bytes and returns `u` shifted into place. -/
lemma read_leb128_encode :
    ∀ (u : ℕ) (rest : List ℕ) (shift acc : ℕ),
      u < 2 ^ (57 - shift) → acc < 2 ^ shift →
      read_varint_leb128 (leb128_encode u ++ rest) shift acc =
        (acc + u * 2 ^ shift, rest, true) := by
  intro u
  induction u using Nat.strong_induction_on with
  | _ u ih =>
    intro rest shift acc hu hacc
    rw [leb128_encode]
    split
    · rename_i hu128
      simp only [List.cons_append, read_varint_leb128]
      rw [show u &&& 127 = u by rw [land127_eq_mod]; omega,
          lor_shiftLeft_eq_add hacc, if_pos (land128_eq_zero hu128)]
      simp
    · rename_i hu128
      push_neg at hu128
      have hshift : shift < 50 := by
        by_contra hs
        push_neg at hs
        have : (2 : ℕ) ^ (57 - shift) ≤ 2 ^ 7 :=
          Nat.pow_le_pow_right (by norm_num) (by omega)
        omega
      simp only [List.cons_append, read_varint_leb128]
      rw [show u % 128 + 128 &&& 127 = u % 128 by rw [land127_eq_mod]; omega,
          lor_shiftLeft_eq_add hacc,
          if_neg (land128_ne_zero (by omega) (by omega)),
          if_neg (by omega : ¬ 63 < shift + 7)]
      have hdiv : u / 128 < u := Nat.div_lt_self (by omega) (by norm_num)
      have hdivlt : u / 128 < 2 ^ (57 - (shift + 7)) := by
        have h1 : u < 2 ^ (57 - shift) := hu
        have h2 : (57 - shift) = (57 - (shift + 7)) + 7 := by omega
        rw [h2, pow_add] at h1
        exact Nat.div_lt_of_lt_mul (by omega)
      have hacc' : acc + u % 128 * 2 ^ shift < 2 ^ (shift + 7) := by
        have hm : u % 128 ≤ 127 := by omega
        have : acc + u % 128 * 2 ^ shift < 2 ^ shift + 127 * 2 ^ shift :=
          Nat.add_lt_add_of_lt_of_le hacc (Nat.mul_le_mul_right _ hm)
        calc acc + u % 128 * 2 ^ shift < 2 ^ shift + 127 * 2 ^ shift := this
          _ = 128 * 2 ^ shift := by ring
          _ = 2 ^ (shift + 7) := by rw [pow_add]; ring
      have hih := ih (u / 128) hdiv rest (shift + 7)
        (acc + u % 128 * 2 ^ shift) hdivlt hacc'
      refine Eq.trans hih ?_
      have hmd : u % 128 + 128 * (u / 128) = u := Nat.mod_add_div u 128
      have harith : acc + u % 128 * 2 ^ shift + u / 128 * 2 ^ (shift + 7) =
          acc + u * 2 ^ shift := by
        calc acc + u % 128 * 2 ^ shift + u / 128 * 2 ^ (shift + 7)
            = acc + (u % 128 + 128 * (u / 128)) * 2 ^ shift := by rw [pow_add]; ring
          _ = acc + u * 2 ^ shift := by rw [hmd]
      rw [harith]

lemma encode_varint_delta_cons (d : ℤ) (ds : List ℤ) :
    encode_varint_delta (d :: ds) =
      leb128_encode (zigzag_encode d) ++ encode_varint_delta ds := by
  simp [encode_varint_delta]

lemma zigzag_encode_le {d : ℤ} (h : |d| ≤ 10 ^ 9) : zigzag_encode d ≤ 2 * 10 ^ 9 := by
  have h2 := abs_le.mp h
  unfold zigzag_encode
  split <;> omega

/-- The decode loop, fed the encoding of a guarded delta list with enough
budget, reproduces the running sums exactly (scale 1). -/
lemma dvd_go_encode :
    ∀ (dels : List ℤ) (base : ℤ) (budget : ℕ),
      dels.length ≤ budget →
      (∀ d ∈ dels, |d| ≤ 10 ^ 9) →
      (∀ s ∈ runningSums dels base, |s| ≤ 10 ^ 12) →
      dvd_go (encode_varint_delta dels) dels.length budget base 1 =
        (runningSums dels base).map (fun z => (z : ℚ)) := by
  intro dels
  induction dels with
  | nil =>
    intro base budget _ _ _
    rw [dvd_go]
    simp [encode_varint_delta, runningSums]
  | cons d ds ih =>
    intro base budget hlen hd hs
    rw [encode_varint_delta_cons, dvd_go]
    have hne : leb128_encode (zigzag_encode d) ++ encode_varint_delta ds ≠ [] := by
      simp [leb128_encode_ne_nil]
    rw [dif_neg (by
      push_neg
      refine ⟨by simp, hne, ?_⟩
      have hb : ds.length + 1 ≤ budget := by simpa using hlen
      omega)]
    have hzz : zigzag_encode d < 2 ^ (57 - 0) := by
      have h1 := zigzag_encode_le (hd d (by simp))
      calc zigzag_encode d ≤ 2 * 10 ^ 9 := h1
        _ < 2 ^ 57 := by norm_num
        _ = 2 ^ (57 - 0) := by norm_num
    rw [read_leb128_encode (zigzag_encode d) (encode_varint_delta ds) 0 0 hzz
      (by norm_num)]
    simp only [pow_zero, mul_one, Nat.zero_add, zigzag_decode_encode]
    rw [if_neg (by simp)]
    have hdle : ¬ 10 ^ 9 < |d| := not_lt.mpr (hd d (by simp))
    rw [if_neg hdle]
    have hbase : |base + d| ≤ 10 ^ 12 := hs (base + d) (by simp [runningSums])
    rw [if_neg (not_lt.mpr hbase)]
    have hrec := ih (base + d) (budget - 1)
      (by simp at hlen; omega)
      (fun x hx => hd x (by simp [hx]))
      (fun s hsm => hs s (by simp [runningSums, hsm]))
    simp only [List.length_cons, Nat.add_sub_cancel]
    rw [hrec]
    simp [runningSums]

lemma encode_varint_delta_length (dels : List ℤ) :
    dels.length ≤ (encode_varint_delta dels).length := by
  induction dels with
  | nil => simp [encode_varint_delta]
  | cons d ds ih =>
    rw [encode_varint_delta_cons]
    have h1 : 1 ≤ (leb128_encode (zigzag_encode d)).length := by
      rcases h : leb128_encode (zigzag_encode d) with _ | _
      · exact absurd h (leb128_encode_ne_nil _)
      · simp
    simp only [List.length_append, List.length_cons]
    omega

/-- C5: zigzag+LEB128 encoding a guarded delta sequence and decoding with
`decode_varint_delta` (scale 1, `n` = number of deltas) reconstructs the
running sums exactly. -/
theorem c5_varint_delta_roundtrip (dels : List ℤ)
    (hd : ∀ d ∈ dels, |d| ≤ 10 ^ 9)
    (hs : ∀ s ∈ runningSums dels 0, |s| ≤ 10 ^ 12) :
    decode_varint_delta (encode_varint_delta dels) dels.length 1 =
      (runningSums dels 0).map (fun z => (z : ℚ)) := by
  unfold decode_varint_delta
  apply dvd_go_encode dels 0 _ _ hd hs
  have h1 := encode_varint_delta_length dels
  omega

/-- Witness for C5: the delta sequence `[3, -2]` encodes to `[6, 3]` and
decodes back to running sums `[3, 1]`. -/
theorem c5_varint_delta_roundtrip_witness :
    decode_varint_delta (encode_varint_delta [3, -2]) 2 1 =
      [((3 : ℤ) : ℚ), ((1 : ℤ) : ℚ)] := by
  have h := c5_varint_delta_roundtrip [3, -2]
    (by intro d hd; fin_cases hd <;> norm_num)
    (by intro s hs; simp [runningSums] at hs; rcases hs with h | h <;> simp [h])
  simpa [runningSums] using h

lemma score_nil (n : ℕ) : plausibility_score [] n = -2 := by
  simp [plausibility_score]

lemma logb10_em6 : Real.logb 10 ((1e-6 : ℝ)) = -6 := by
  have h : (1e-6 : ℝ) = ((10 : ℝ) ^ (6 : ℕ))⁻¹ := by norm_num
  have hl : Real.log 10 ≠ 0 := ne_of_gt (Real.log_pos (by norm_num))
  rw [h, Real.logb, Real.log_inv, Real.log_pow]
  field_simp

lemma welfordStep_zero (n : ℕ) : welfordStep (n, 0, 0) 0 = (n + 1, 0, 0) := by
  norm_num [welfordStep]

lemma welford_replicate_zero (k : ℕ) : welford (List.replicate k 0) = (k, 0, 0) := by
  have aux : ∀ (k n : ℕ),
      List.foldl welfordStep (n, 0, 0) (List.replicate k 0) = (n + k, 0, 0) := by
    intro k
    induction k with
    | zero => intro n; simp
    | succ k ih =>
      intro n
      rw [List.replicate_succ, List.foldl_cons, welfordStep_zero, ih]
      have h : n + 1 + k = n + (k + 1) := by omega
      rw [h]
  simpa [welford] using aux k 0

lemma safe_stats_replicate_zero (k : ℕ) : safe_stats (List.replicate k 0) = (0, 0, k) := by
  simp only [safe_stats, welford_replicate_zero]
  split
  · rfl
  · norm_num

lemma filterMap_id_replicate (k : ℕ) :
    (List.replicate k (some (0 : ℚ))).filterMap id = List.replicate k (0 : ℚ) := by
  induction k with
  | zero => simp
  | succ k ih => simp [List.replicate_succ, ih]

lemma score_replicate_zero (k : ℕ) (hk : 1 ≤ k) :
    plausibility_score (List.replicate k (some (0 : ℚ))) k =
      -5 - |Real.log (1 + 1e-9)| := by
  have hk0 : ((k : ℚ)) ≠ 0 := by
    have : k ≠ 0 := by omega
    exact_mod_cast this
  have hne : List.replicate k (some (0 : ℚ)) ≠ [] := by
    simp only [ne_eq, List.replicate_eq_nil_iff]
    omega
  have hmax : max (1 : ℚ) (k : ℚ) = (k : ℚ) :=
    max_eq_right (by exact_mod_cast hk)
  simp only [plausibility_score, if_neg hne, filterMap_id_replicate,
    safe_stats_replicate_zero, List.length_replicate, hmax, div_self hk0]
  rw [if_neg (by norm_num : ¬ ((1 : ℚ) < 0.90))]
  rw [if_neg (by norm_num : ¬ ((1e9 : ℚ) < |(0 : ℚ)|))]
  rw [zero_add, logb10_em6]
  push_cast
  ring

/-- C7 counterexample: a non-empty, fully finite, length-matching constant
candidate scores `-5 - |ln(1+1e-9)| < -2`, so `-2.0` is not the worst
score `plausibility_score` assigns. -/
theorem c7_counterexample : plausibility_score [some (0 : ℚ)] 1 < -2 := by
  have h := score_replicate_zero 1 (le_refl 1)
  simp only [List.replicate_one] at h
  rw [h]
  have := abs_nonneg (Real.log (1 + 1e-9))
  linarith

/-- C7 (amended): `plausibility_score` returns exactly `-2.0` for an empty
candidate list, but `-2.0` is not a floor over all candidates: a non-empty
candidate can score strictly below `-2.0` (e.g. a constant finite list), so
empty candidates can outrank non-empty ones. -/
theorem c7_empty_scores_minus_two_but_not_floor :
    (∀ n : ℕ, plausibility_score [] n = -2) ∧
    (∃ (vals : List (Option ℚ)) (n : ℕ), vals ≠ [] ∧ plausibility_score vals n < -2) := by
  refine ⟨score_nil, [some (0 : ℚ)], 1, by simp, ?_⟩
  have h := score_replicate_zero 1 (le_refl 1)
  simp only [List.replicate_one] at h
  rw [h]
  have := abs_nonneg (Real.log (1 + 1e-9))
  linarith

/-- Shape of the score in the statistics branch (non-empty candidate with
finite fraction at least 0.90). -/
lemma plausibility_score_stats (values : List (Option ℚ)) (n : ℕ)
    (hne : values ≠ [])
    (hfrac : ¬ ((((values.filterMap id).length : ℚ) / max 1 (values.length : ℚ)) < 0.90)) :
    plausibility_score values n =
      (((((values.filterMap id).length : ℚ) / max 1 (values.length : ℚ)) : ℚ) : ℝ)
      + Real.logb 10 ((safe_stats (values.filterMap id)).2.1 + 1e-6)
      + -|Real.log (((((values.length : ℚ) / max 1 (n : ℚ)) : ℚ) : ℝ) + 1e-9)|
      + (if (1e9 : ℚ) < |(safe_stats (values.filterMap id)).1| then (-(0.1 : ℝ)) else 0) := by
  simp only [plausibility_score, if_neg hne, if_neg hfrac]

/-- C6 (amended): among two non-empty candidates of equal length and equal
finite count with finite fraction at least 0.90, zero versus non-zero
variance, and — the amendment — equal magnitude penalty (neither mean
exceeds `1e9` in absolute value), the non-zero-variance candidate scores
strictly higher. -/
theorem c6_variance_scores_higher_equal_mag (vz vp : List (Option ℚ)) (n : ℕ)
    (hnez : vz ≠ []) (hlen : vz.length = vp.length)
    (hcount : (vz.filterMap id).length = (vp.filterMap id).length)
    (hfrac : (0.90 : ℚ) ≤ ((vz.filterMap id).length : ℚ) / max 1 (vz.length : ℚ))
    (hsdz : (safe_stats (vz.filterMap id)).2.1 = 0)
    (hsdp : 0 < (safe_stats (vp.filterMap id)).2.1)
    (hmz : ¬ ((1e9 : ℚ) < |(safe_stats (vz.filterMap id)).1|))
    (hmp : ¬ ((1e9 : ℚ) < |(safe_stats (vp.filterMap id)).1|)) :
    plausibility_score vz n < plausibility_score vp n := by
  have hnep : vp ≠ [] := by
    intro h
    rw [h] at hlen
    simp only [List.length_nil] at hlen
    exact hnez (List.length_eq_zero.mp hlen)
  have hfz : ¬ (((vz.filterMap id).length : ℚ) / max 1 (vz.length : ℚ) < 0.90) :=
    not_lt.mpr hfrac
  have hfp : ¬ (((vp.filterMap id).length : ℚ) / max 1 (vp.length : ℚ) < 0.90) := by
    rw [← hcount, ← hlen]
    exact hfz
  rw [plausibility_score_stats vz n hnez hfz, plausibility_score_stats vp n hnep hfp,
      hsdz, hlen, hcount, if_neg hmz, if_neg hmp]
  have hlog : Real.logb 10 ((0 : ℝ) + 1e-6) <
      Real.logb 10 ((safe_stats (vp.filterMap id)).2.1 + 1e-6) := by
    apply Real.logb_lt_logb (by norm_num) (by norm_num)
    linarith
  linarith

lemma welford_cexBig :
    welford [(2 : ℚ) * 10 ^ 9, 2 * 10 ^ 9 + 2 / 10 ^ 7] =
      (2, 2 * 10 ^ 9 + 1 / 10 ^ 7, 2 / 10 ^ 14) := by
  norm_num [welford, welfordStep]

lemma safe_stats_cexBig :
    safe_stats [(2 : ℚ) * 10 ^ 9, 2 * 10 ^ 9 + 2 / 10 ^ 7] =
      (2 * 10 ^ 9 + 1 / 10 ^ 7, Real.sqrt (((2 / 10 ^ 14 : ℚ) : ℝ)), 2) := by
  simp only [safe_stats, welford_cexBig]
  norm_num

lemma logb_115_lt : Real.logb 10 ((115 / 100 : ℝ)) < 1 / 10 := by
  have key : Real.logb 10 (((115 / 100 : ℝ)) ^ (10 : ℕ)) < Real.logb 10 10 :=
    Real.logb_lt_logb (by norm_num) (by positivity) (by norm_num)
  rw [Real.logb_pow, Real.logb_self_eq_one (by norm_num)] at key
  push_cast at key
  linarith

lemma logb_cexBig_lt :
    Real.logb 10 (Real.sqrt (((2 / 10 ^ 14 : ℚ) : ℝ)) + 1e-6) < -(59 / 10) := by
  have hc : (((2 / 10 ^ 14 : ℚ) : ℝ)) = (2 / 10 ^ 14 : ℝ) := by norm_num
  have hsd : Real.sqrt (((2 / 10 ^ 14 : ℚ) : ℝ)) < 15 / 10 ^ 8 := by
    rw [hc]
    exact (Real.sqrt_lt' (by norm_num)).mpr (by norm_num)
  have hsd0 : (0 : ℝ) ≤ Real.sqrt (((2 / 10 ^ 14 : ℚ) : ℝ)) := Real.sqrt_nonneg _
  have h1 : Real.logb 10 (Real.sqrt (((2 / 10 ^ 14 : ℚ) : ℝ)) + 1e-6) <
      Real.logb 10 ((115 / 10 ^ 8 : ℝ)) := by
    apply Real.logb_lt_logb (by norm_num) (by positivity)
    have : (1e-6 : ℝ) = 1 / 10 ^ 6 := by norm_num
    rw [this]
    rw [show (115 / 10 ^ 8 : ℝ) = 15 / 10 ^ 8 + 1 / 10 ^ 6 by norm_num]
    linarith
  have h2 : Real.logb 10 ((115 / 10 ^ 8 : ℝ)) =
      Real.logb 10 ((115 / 100 : ℝ)) + Real.logb 10 ((1e-6 : ℝ)) := by
    rw [← Real.logb_mul (by norm_num) (by norm_num)]
    norm_num
  rw [h2, logb10_em6] at h1
  have h3 := logb_115_lt
  linarith

/-- C6 counterexample: two non-empty length-2 fully finite candidates with
target 2; the first has zero variance, the second non-zero variance, but
the second's mean magnitude trips the `-0.1` penalty while its variance
gain is below `0.1`, so the non-zero-variance candidate scores strictly
LOWER — the claimed monotonicity fails. -/
theorem c6_counterexample :
    ([some (0 : ℚ), some 0] : List (Option ℚ)).length =
      ([some ((2 : ℚ) * 10 ^ 9), some (2 * 10 ^ 9 + 2 / 10 ^ 7)] : List (Option ℚ)).length ∧
    (([some (0 : ℚ), some 0] : List (Option ℚ)).filterMap id).length = 2 ∧
    (([some ((2 : ℚ) * 10 ^ 9), some (2 * 10 ^ 9 + 2 / 10 ^ 7)] :
      List (Option ℚ)).filterMap id).length = 2 ∧
    (safe_stats (([some (0 : ℚ), some 0] : List (Option ℚ)).filterMap id)).2.1 = 0 ∧
    0 < (safe_stats (([some ((2 : ℚ) * 10 ^ 9), some (2 * 10 ^ 9 + 2 / 10 ^ 7)] :
      List (Option ℚ)).filterMap id)).2.1 ∧
    plausibility_score [some ((2 : ℚ) * 10 ^ 9), some (2 * 10 ^ 9 + 2 / 10 ^ 7)] 2 <
      plausibility_score [some (0 : ℚ), some 0] 2 := by
  have hfm : (([some ((2 : ℚ) * 10 ^ 9), some (2 * 10 ^ 9 + 2 / 10 ^ 7)] :
      List (Option ℚ)).filterMap id) = [(2 : ℚ) * 10 ^ 9, 2 * 10 ^ 9 + 2 / 10 ^ 7] := by
    simp
  have hfm0 : (([some (0 : ℚ), some 0] : List (Option ℚ)).filterMap id) =
      [(0 : ℚ), 0] := by simp
  have hz : (safe_stats (([some (0 : ℚ), some 0] : List (Option ℚ)).filterMap id)).2.1 = 0 := by
    rw [hfm0, show [(0 : ℚ), 0] = List.replicate 2 (0 : ℚ) by rfl,
      safe_stats_replicate_zero]
  have hsdpos : 0 < Real.sqrt (((2 / 10 ^ 14 : ℚ) : ℝ)) :=
    Real.sqrt_pos.mpr (by norm_num)
  refine ⟨rfl, by simp, by simp, hz, ?_, ?_⟩
  · rw [hfm, safe_stats_cexBig]
    exact hsdpos
  · have hscore0 : plausibility_score [some (0 : ℚ), some 0] 2 =
        -5 - |Real.log (1 + 1e-9)| := by
      rw [show ([some (0 : ℚ), some 0] : List (Option ℚ)) =
        List.replicate 2 (some (0 : ℚ)) by rfl]
      exact score_replicate_zero 2 (by omega)
    have hscoreB : plausibility_score
        [some ((2 : ℚ) * 10 ^ 9), some (2 * 10 ^ 9 + 2 / 10 ^ 7)] 2 =
        1 + Real.logb 10 (Real.sqrt (((2 / 10 ^ 14 : ℚ) : ℝ)) + 1e-6)
          + -|Real.log ((1 : ℝ) + 1e-9)| + -(0.1 : ℝ) := by
      rw [plausibility_score_stats _ 2 (by simp) (by rw [hfm]; norm_num)]
      rw [hfm, safe_stats_cexBig]
      rw [if_pos (by rw [show |(2 * 10 ^ 9 + 1 / 10 ^ 7 : ℚ)| = 2 * 10 ^ 9 + 1 / 10 ^ 7
        from abs_of_pos (by norm_num)]; norm_num)]
      norm_num
    rw [hscore0, hscoreB]
    have hV := logb_cexBig_lt
    linarith

/-- Witness for the amended C6: `[0,0]` (zero variance) versus `[0,1]`
(non-zero variance, small mean) with target 2. -/
theorem c6_variance_scores_higher_equal_mag_witness :
    plausibility_score [some (0 : ℚ), some 0] 2 <
      plausibility_score [some (0 : ℚ), some 1] 2 := by
  have hw : welford [(0 : ℚ), 1] = (2, 1 / 2, 1 / 2) := by
    norm_num [welford, welfordStep]
  have hss : safe_stats [(0 : ℚ), 1] =
      (1 / 2, Real.sqrt (((1 / 2 : ℚ) : ℝ)), 2) := by
    simp only [safe_stats, hw]
    norm_num
  apply c6_variance_scores_higher_equal_mag
  · simp
  · rfl
  · simp
  · simp
    norm_num
  · rw [show (([some (0 : ℚ), some 0] : List (Option ℚ)).filterMap id) =
      List.replicate 2 (0 : ℚ) by simp [List.replicate], safe_stats_replicate_zero]
  · rw [show (([some (0 : ℚ), some 1] : List (Option ℚ)).filterMap id) =
      [(0 : ℚ), 1] by simp, hss]
    exact Real.sqrt_pos.mpr (by norm_num)
  · rw [show (([some (0 : ℚ), some 0] : List (Option ℚ)).filterMap id) =
      List.replicate 2 (0 : ℚ) by simp [List.replicate], safe_stats_replicate_zero]
    norm_num
  · rw [show (([some (0 : ℚ), some 1] : List (Option ℚ)).filterMap id) =
      [(0 : ℚ), 1] by simp, hss]
    rw [show |(1 / 2 : ℚ)| = 1 / 2 from abs_of_pos (by norm_num)]
    norm_num

lemma emitRows_mem_lt {α : Type} (te p : ℤ) :
    ∀ (vals : List α) (tb : ℤ), ∀ r ∈ emitRows tb te p vals, r.1 < te := by
  intro vals
  induction vals with
  | nil => intro tb r hr; simp [emitRows] at hr
  | cons v vs ih =>
    intro tb r hr
    rw [emitRows] at hr
    by_cases h : te ≤ tb
    · rw [if_pos h] at hr
      simp at hr
    · rw [if_neg h] at hr
      rcases List.mem_cons.mp hr with h1 | h1
      · rw [h1]
        simpa using lt_of_not_le h
      · exact ih (tb + p) r h1

lemma emitRows_head {α : Type} (te p : ℤ) (vals : List α) (tb : ℤ) (r : ℤ × α)
    (h : (emitRows tb te p vals).head? = some r) : r.1 = tb := by
  rcases vals with _ | ⟨v, vs⟩
  · simp [emitRows] at h
  · rw [emitRows] at h
    by_cases hle : te ≤ tb
    · rw [if_pos hle] at h
      simp at h
    · rw [if_neg hle] at h
      simp at h
      rw [← h]

lemma emitRows_chain {α : Type} (te p : ℤ) :
    ∀ (vals : List α) (tb : ℤ),
      (emitRows tb te p vals).Chain' (fun a b => b.1 = a.1 + p) := by
  intro vals
  induction vals with
  | nil => intro tb; simp [emitRows]
  | cons v vs ih =>
    intro tb
    rw [emitRows]
    by_cases h : te ≤ tb
    · rw [if_pos h]
      simp
    · rw [if_neg h]
      rw [List.chain'_cons']
      refine ⟨?_, ih (tb + p)⟩
      intro y hy
      rw [emitRows_head te p vs (tb + p) y hy]

/-- C2 (amended): every emitted timestamp is strictly below `end_time`, the
first emitted timestamp is `start_time`, and consecutive timestamps differ
by exactly `period_ms`; the timestamps are strictly increasing provided
`period_ms ≥ 1` — with a (header-expressible) period of 0 ms every emitted
timestamp equals `start_time`. -/
theorem c2_emitted_timestamp_invariants {α : Type} (tb te p : ℤ) (vals : List α) :
    (∀ r ∈ emitRows tb te p vals, r.1 < te) ∧
    (∀ r, (emitRows tb te p vals).head? = some r → r.1 = tb) ∧
    (emitRows tb te p vals).Chain' (fun a b => b.1 = a.1 + p) ∧
    (1 ≤ p → (emitRows tb te p vals).Chain' (fun a b => a.1 < b.1)) := by
  refine ⟨emitRows_mem_lt te p vals tb, fun r h => emitRows_head te p vals tb r h,
    emitRows_chain te p vals tb, fun hp => ?_⟩
  have hc := emitRows_chain te p vals tb
  exact List.Chain'.imp (fun a b hab => by omega) hc

/-- Witness for C2 (amended): a concrete emission (tb=0, te=1000, p=250,
three samples) satisfying all four invariant parts. -/
theorem c2_emitted_timestamp_invariants_witness :
    (∀ r ∈ emitRows (0 : ℤ) 1000 250 [(1 : ℕ), 0, 1], r.1 < 1000) ∧
    (∀ r, (emitRows (0 : ℤ) 1000 250 [(1 : ℕ), 0, 1]).head? = some r → r.1 = 0) ∧
    (emitRows (0 : ℤ) 1000 250 [(1 : ℕ), 0, 1]).Chain' (fun a b => b.1 = a.1 + 250) ∧
    (emitRows (0 : ℤ) 1000 250 [(1 : ℕ), 0, 1]).Chain' (fun a b => a.1 < b.1) := by
  have h := c2_emitted_timestamp_invariants (α := ℕ) 0 1000 250 [1, 0, 1]
  exact ⟨h.1, h.2.1, h.2.2.1, h.2.2.2 (by norm_num)⟩

lemma find_dcPeriodZeroBlock :
    find_excel_serial_double dcPeriodZeroBlock 64 = some (0, 40000) := by
  rw [find_serial_eq_some_iff]
  refine ⟨by decide, ?_, by norm_num, by norm_num, by omega⟩
  norm_num [f64at, dcPeriodZeroBlock, serialBytes, decodeF64, leNat]

/-- C2 counterexample: a decoded digital block whose header declares
`period_ms = 0` emits 8 samples all timestamped at `start_time` — strictly
below `end_time` and spaced by exactly `period_ms = 0`, but NOT
monotonically increasing, refuting the unconditional monotonicity claim. -/
theorem c2_counterexample :
    decode_dc_block dcPeriodZeroBlock 0 2 false =
      DigitalOutcome.emitted
        [(0, 1), (0, 0), (0, 1), (0, 0), (0, 0), (0, 0), (0, 0), (0, 0)] ∧
    ¬ (([((0 : ℤ), (1 : ℕ)), (0, 0), (0, 1), (0, 0), (0, 0), (0, 0), (0, 0),
        (0, 0)]).Chain' (fun a b => a.1 < b.1)) := by
  constructor
  · unfold decode_dc_block
    rw [find_dcPeriodZeroBlock]
    decide
  · simp [List.chain'_cons]

/-- The invariant carried by the fallback fold: any stored pick has its
inferred period inside `[50, 60000]` and equal to the banker's rounding of
`total_ms / max(1, len(vals))`. -/
def FallbackInv (total_ms : ℤ) (q : FallbackPick) : Prop :=
  50 ≤ q.period ∧ q.period ≤ 60000 ∧
    q.period = bankersRound ((total_ms : ℚ) / max 1 (q.vals.length : ℚ))

lemma fallbackStep_inv (total_ms : ℤ) (acc : Option FallbackPick) (c : Cand)
    (hacc : ∀ q, acc = some q → FallbackInv total_ms q) :
    ∀ q, fallbackStep total_ms acc c = some q → FallbackInv total_ms q := by
  intro q hq
  unfold fallbackStep at hq
  by_cases hn : c.2.1.length = 0
  · rw [if_pos hn] at hq
    exact hacc q hq
  · rw [if_neg hn] at hq
    set r : ℤ := bankersRound ((total_ms : ℚ) / max 1 (c.2.1.length : ℚ)) with hr
    by_cases hrange : 50 ≤ max 1 r ∧ max 1 r ≤ 60000
    · rw [if_pos hrange] at hq
      have hmax : max 1 r = r := by omega
      cases hc : acc with
      | none =>
        rw [hc] at hq
        simp only [Option.some.injEq] at hq
        rw [← hq]
        refine ⟨by simpa [hmax] using hrange.1, by simpa [hmax] using hrange.2, ?_⟩
        simp [hmax, hr]
      | some bp =>
        rw [hc] at hq
        dsimp only at hq
        by_cases hsc : plausibility_score (c.2.1.take (min c.2.1.length 10000))
            c.2.1.length > bp.score
        · rw [if_pos hsc] at hq
          simp only [Option.some.injEq] at hq
          rw [← hq]
          refine ⟨by simpa [hmax] using hrange.1, by simpa [hmax] using hrange.2, ?_⟩
          simp [hmax, hr]
        · rw [if_neg hsc] at hq
          simp only [Option.some.injEq] at hq
          rw [← hq]
          exact hacc bp (by rw [hc])
    · rw [if_neg hrange] at hq
      exact hacc q hq

lemma fallback_fold_inv (total_ms : ℤ) :
    ∀ (l : List Cand) (acc : Option FallbackPick),
      (∀ q, acc = some q → FallbackInv total_ms q) →
      ∀ q, l.foldl (fallbackStep total_ms) acc = some q → FallbackInv total_ms q := by
  intro l
  induction l with
  | nil => intro acc hacc q hq; exact hacc q hq
  | cons c cs ih =>
    intro acc hacc q hq
    rw [List.foldl_cons] at hq
    exact ih (fallbackStep total_ms acc c) (fallbackStep_inv total_ms acc c hacc) q hq

/-- C4: the header-not-found fallback never selects a candidate whose
inferred period `round(total_ms / max(1, len))` lies outside `[50, 60000]`
ms — such candidates are excluded before scoring, so any selected pick has
its period in range and equal to the inference formula. -/
theorem c4_fallback_period_in_range (total_ms : ℤ) (cands : List Cand) (p : FallbackPick)
    (h : fallbackSelect total_ms cands = some p) :
    50 ≤ p.period ∧ p.period ≤ 60000 ∧
      p.period = bankersRound ((total_ms : ℚ) / max 1 (p.vals.length : ℚ)) :=
  fallback_fold_inv total_ms cands none (by intro q hq; cases hq) p h

lemma fallbackStep_emptyc (tms : ℤ) (acc : Option FallbackPick) (c : Cand)
    (h : c.2.1 = []) : fallbackStep tms acc c = acc := by
  simp [fallbackStep, h]

lemma fallback_fold_emptyc (tms : ℤ) :
    ∀ (l : List Cand) (acc : Option FallbackPick),
      (∀ c ∈ l, c.2.1 = []) → l.foldl (fallbackStep tms) acc = acc := by
  intro l
  induction l with
  | nil => intro acc _; rfl
  | cons c cs ih =>
    intro acc hall
    rw [List.foldl_cons, fallbackStep_emptyc tms acc c (hall c (by simp))]
    exact ih acc (fun x hx => hall x (by simp [hx]))

lemma decode_float32_nil (n : ℕ) : decode_float32 [] n = [] := by
  simp [decode_float32]

lemma decode_float64_nil (n : ℕ) : decode_float64 [] n = [] := by
  simp [decode_float64]

lemma decode_int16_nil (n : ℕ) (s : ℚ) : decode_int16_scaled [] n s = [] := by
  simp [decode_int16_scaled]

lemma decode_varint_nil (n : ℕ) (s : ℚ) : decode_varint_delta [] n s = [] := by
  rw [decode_varint_delta, dvd_go]
  simp

lemma decode_float32_one (n : ℕ) : decode_float32 [0] n = [] := by
  simp [decode_float32]

lemma decode_float64_one (n : ℕ) : decode_float64 [0] n = [] := by
  simp [decode_float64]

lemma decode_int16_one (n : ℕ) (s : ℚ) : decode_int16_scaled [0] n s = [] := by
  simp [decode_int16_scaled]

lemma dvd_go_nil (need budget : ℕ) (base : ℤ) (s : ℚ) :
    dvd_go [] need budget base s = [] := by
  rw [dvd_go]
  simp

lemma decode_varint_zeros1 : decode_varint_delta [0] (10 ^ 7) 1 = [0] := by
  rw [decode_varint_delta, dvd_go]
  rw [dif_neg (by norm_num)]
  rw [show read_varint_leb128 [0] 0 0 = (0, [], true) from by decide]
  simp only [show zigzag_decode 0 = 0 from by decide]
  norm_num [dvd_go_nil]

lemma bankers_1000_over_1 :
    max 1 (bankersRound ((1000 : ℤ) / max 1 (((1 : ℕ) : ℚ)) : ℚ)) = 1000 := by
  norm_num [bankersRound]

lemma fallbackSelect_b0 :
    fallbackSelect 1000 (fallbackCandidates [0] 1) =
      some ⟨plausibility_score [some 0] 1, CodecName.varint_delta, [some 0], 1000, 0⟩ := by
  have hsplit : fallbackCandidates [0] 1 =
      [(CodecName.float32, decode_float32 [0] 0, 0),
       (CodecName.float64, decode_float64 [0] 0, 0),
       (CodecName.int16_scaled, decode_int16_scaled [0] 0 1, 0),
       (CodecName.varint_delta, (decode_varint_delta [0] (10 ^ 7) 1).map some, 0)]
      ++ (List.range' 1 11).flatMap (fun skip =>
        let payload := ([0] : List ℕ).drop skip
        [(CodecName.float32, decode_float32 payload (payload.length / 4), skip),
         (CodecName.float64, decode_float64 payload (payload.length / 8), skip),
         (CodecName.int16_scaled, decode_int16_scaled payload (payload.length / 2) 1, skip),
         (CodecName.varint_delta, (decode_varint_delta payload (10 ^ 7) 1).map some, skip)]) := by
    rw [fallbackCandidates, show List.range 12 = 0 :: List.range' 1 11 from by decide,
        List.flatMap_cons]
    rfl
  rw [hsplit]
  unfold fallbackSelect
  rw [List.foldl_append]
  rw [List.foldl_cons, fallbackStep_emptyc _ _ _ (decode_float32_one 0)]
  rw [List.foldl_cons, fallbackStep_emptyc _ _ _ (decode_float64_one 0)]
  rw [List.foldl_cons, fallbackStep_emptyc _ _ _ (decode_int16_one 0 1)]
  rw [List.foldl_cons]
  have hstep : fallbackStep 1000 none
      (CodecName.varint_delta, (decode_varint_delta [0] (10 ^ 7) 1).map some, 0) =
      some ⟨plausibility_score [some 0] 1, CodecName.varint_delta, [some 0], 1000, 0⟩ := by
    rw [decode_varint_zeros1]
    unfold fallbackStep
    have hb : bankersRound ((1000 : ℚ)) = 1000 := by norm_num [bankersRound]
    norm_num [hb]
  rw [hstep, List.foldl_nil]
  apply fallback_fold_emptyc
  intro c hc
  rw [List.mem_flatMap] at hc
  obtain ⟨k, hk, hc⟩ := hc
  rw [List.mem_range'_1] at hk
  have hdrop : ([0] : List ℕ).drop k = [] := List.drop_eq_nil_of_le (by simpa using hk.1)
  simp only [hdrop] at hc
  simp only [List.mem_cons] at hc
  rcases hc with h | h | h | h | h
  · rw [h]; simp [decode_float32_nil]
  · rw [h]; simp [decode_float64_nil]
  · rw [h]; simp [decode_int16_nil]
  · rw [h]; simp [decode_varint_nil]
  · exact absurd h (List.not_mem_nil c)

/-- Witness for C4: on the 1-byte header-less buffer `[0]` with
`total_ms = 1000` the fallback selects the varint candidate with inferred
period 1000 ms, which the theorem places inside `[50, 60000]`. -/
theorem c4_fallback_period_in_range_witness :
    ∃ p : FallbackPick, fallbackSelect 1000 (fallbackCandidates [0] 1) = some p ∧
      50 ≤ p.period ∧ p.period ≤ 60000 := by
  refine ⟨_, fallbackSelect_b0, ?_, ?_⟩
  · exact (c4_fallback_period_in_range 1000 (fallbackCandidates [0] 1) _
      fallbackSelect_b0).1
  · exact (c4_fallback_period_in_range 1000 (fallbackCandidates [0] 1) _
      fallbackSelect_b0).2.1

lemma selectStep_some (exp_n : ℕ) (s0 : ℝ) (c0 : Cand) (c : Cand) :
    selectStep exp_n (some (s0, c0)) c =
      if plausibility_score c.2.1 exp_n > s0 then some (plausibility_score c.2.1 exp_n, c)
      else some (s0, c0) := rfl

lemma selectStep_none (exp_n : ℕ) (c : Cand) :
    selectStep exp_n none c = some (plausibility_score c.2.1 exp_n, c) := rfl

lemma select_fold_some (exp_n : ℕ) :
    ∀ (l : List Cand) (s0 : ℝ) (c0 : Cand) (s : ℝ) (c : Cand),
      l.foldl (selectStep exp_n) (some (s0, c0)) = some (s, c) →
      (c = c0 ∧ s = s0 ∧ ∀ x ∈ l, plausibility_score x.2.1 exp_n ≤ s0) ∨
      (∃ pre post, l = pre ++ c :: post ∧ s = plausibility_score c.2.1 exp_n ∧ s0 < s ∧
        (∀ x ∈ pre, plausibility_score x.2.1 exp_n < s) ∧
        (∀ x ∈ post, plausibility_score x.2.1 exp_n ≤ s)) := by
  intro l
  induction l with
  | nil =>
    intro s0 c0 s c h
    simp only [List.foldl_nil, Option.some.injEq, Prod.mk.injEq] at h
    exact Or.inl ⟨h.2.symm, h.1.symm, by simp⟩
  | cons x xs ih =>
    intro s0 c0 s c h
    rw [List.foldl_cons, selectStep_some] at h
    by_cases hx : plausibility_score x.2.1 exp_n > s0
    · rw [if_pos hx] at h
      rcases ih _ _ _ _ h with ⟨hc, hs, hall⟩ | ⟨pre, post, hl, hs, hlt, hpre, hpost⟩
      · right
        refine ⟨[], xs, by simp [hc], by rw [hs, hc], by rw [hs]; exact hx, by simp, ?_⟩
        intro y hy
        rw [hs]
        exact hall y hy
      · right
        refine ⟨x :: pre, post, by simp [hl], hs, lt_trans hx hlt, ?_, hpost⟩
        intro y hy
        rcases List.mem_cons.mp hy with h1 | h1
        · rw [h1]; exact hlt
        · exact hpre y h1
    · rw [if_neg hx] at h
      rcases ih _ _ _ _ h with ⟨hc, hs, hall⟩ | ⟨pre, post, hl, hs, hlt, hpre, hpost⟩
      · left
        refine ⟨hc, hs, ?_⟩
        intro y hy
        rcases List.mem_cons.mp hy with h1 | h1
        · rw [h1]; exact not_lt.mp hx
        · exact hall y h1
      · right
        refine ⟨x :: pre, post, by simp [hl], hs, hlt, ?_, hpost⟩
        intro y hy
        rcases List.mem_cons.mp hy with h1 | h1
        · rw [h1]; exact lt_of_le_of_lt (not_lt.mp hx) hlt
        · exact hpre y h1

lemma select_fold_isSome (exp_n : ℕ) :
    ∀ (l : List Cand) (p : ℝ × Cand), ∃ q, l.foldl (selectStep exp_n) (some p) = some q := by
  intro l
  induction l with
  | nil => intro p; exact ⟨p, rfl⟩
  | cons x xs ih =>
    intro p
    rw [List.foldl_cons]
    rcases p with ⟨s0, c0⟩
    rw [selectStep_some]
    split
    · exact ih _
    · exact ih _

lemma select_fold_stay (exp_n : ℕ) (s0 : ℝ) (c0 : Cand) :
    ∀ (l : List Cand), (∀ x ∈ l, plausibility_score x.2.1 exp_n ≤ s0) →
      l.foldl (selectStep exp_n) (some (s0, c0)) = some (s0, c0) := by
  intro l
  induction l with
  | nil => intro _; rfl
  | cons x xs ih =>
    intro hall
    rw [List.foldl_cons, selectStep_some,
        if_neg (not_lt.mpr (hall x (by simp)))]
    exact ih (fun y hy => hall y (by simp [hy]))

lemma selectBest_spec (exp_n : ℕ) (cands : List Cand) (s : ℝ) (c : Cand)
    (h : selectBest exp_n cands = some (s, c)) :
    s = plausibility_score c.2.1 exp_n ∧
    ∃ pre post, cands = pre ++ c :: post ∧
      (∀ x ∈ pre, plausibility_score x.2.1 exp_n < s) ∧
      (∀ x ∈ post, plausibility_score x.2.1 exp_n ≤ s) := by
  cases cands with
  | nil => simp [selectBest] at h
  | cons c1 cs =>
    unfold selectBest at h
    rw [List.foldl_cons, selectStep_none] at h
    rcases select_fold_some exp_n cs _ _ _ _ h with ⟨hc, hs, hall⟩ |
      ⟨pre, post, hl, hs, hlt, hpre, hpost⟩
    · subst hc
      refine ⟨hs, [], cs, by simp, by simp, ?_⟩
      intro y hy
      rw [hs]
      exact hall y hy
    · refine ⟨hs, c1 :: pre, post, by simp [hl], ?_, hpost⟩
      intro y hy
      rcases List.mem_cons.mp hy with h1 | h1
      · rw [h1]; exact hlt
      · exact hpre y h1

lemma selectBest_cons_isSome (exp_n : ℕ) (c1 : Cand) (cs : List Cand) :
    ∃ s c, selectBest exp_n (c1 :: cs) = some (s, c) := by
  unfold selectBest
  rw [List.foldl_cons, selectStep_none]
  obtain ⟨⟨s, c⟩, hq⟩ := select_fold_isSome exp_n cs (plausibility_score c1.2.1 exp_n, c1)
  exact ⟨s, c, hq⟩

lemma scanCandidates_ne_nil (b : List ℕ) (he n : ℕ) (scale : ℚ) :
    scanCandidates b he n scale ≠ [] := by
  rw [scanCandidates, show List.range 9 = 0 :: List.range' 1 8 from by decide,
      List.flatMap_cons]
  simp

/-- C1 (amended): the header-path selection keeps the single
highest-scoring candidate over the WHOLE grid, empty candidates included
(an empty candidate scores `-2.0`); ties keep the first candidate in
iteration order, which is skip 0..8 in the OUTER loop and codec list order
in the inner loop (the grid order of `scanCandidates`); and the block is
signalled `NoPlausibleCodec` if and only if that overall winner is empty —
which can happen while non-empty candidates exist in the grid. -/
theorem c1_selection_keeps_first_highest :
    (∀ (exp_n : ℕ) (cands : List Cand) (s : ℝ) (c : Cand),
      selectBest exp_n cands = some (s, c) →
        s = plausibility_score c.2.1 exp_n ∧
        ∃ pre post, cands = pre ++ c :: post ∧
          (∀ x ∈ pre, plausibility_score x.2.1 exp_n < s) ∧
          (∀ x ∈ post, plausibility_score x.2.1 exp_n ≤ s)) ∧
    (∀ (b : List ℕ) (tb te : ℤ) (scale : ℚ) (i : ℕ) (v : ℚ),
      find_excel_serial_double b 256 = some (i, v) →
      ¬ (b.length < i + 8 + 4) →
      (decode_analog_block b tb te scale = AnalogOutcome.noPlausibleCodec ↔
        ∃ s c, selectBest (expSamples (te - tb) (leNat ((b.drop (i + 8)).take 4)))
            (scanCandidates b (i + 12)
              (expSamples (te - tb) (leNat ((b.drop (i + 8)).take 4)))
              (effectiveScale scale)) = some (s, c) ∧ c.2.1 = [])) := by
  refine ⟨selectBest_spec, ?_⟩
  intro b tb te scale i v hfind htrunc
  unfold decode_analog_block
  rw [hfind]
  dsimp only
  rw [if_neg htrunc]
  obtain ⟨ch, ct, hgrid⟩ := List.exists_cons_of_ne_nil
    (scanCandidates_ne_nil b (i + 12)
      (expSamples (te - tb) (leNat ((b.drop (i + 8)).take 4))) (effectiveScale scale))
  rw [hgrid]
  obtain ⟨s, c, hsel⟩ :=
    selectBest_cons_isSome (expSamples (te - tb) (leNat ((b.drop (i + 8)).take 4))) ch ct
  rw [hsel]
  dsimp only
  by_cases hc : c.2.1 = []
  · rw [if_pos hc]
    exact iff_of_true rfl ⟨s, c, rfl, hc⟩
  · rw [if_neg hc]
    refine iff_of_false (by simp) ?_
    rintro ⟨s', c', hsel', hc'⟩
    have h2 : c = c' := congrArg Prod.snd (Option.some.inj hsel')
    rw [← h2] at hc'
    exact hc hc'

lemma find_analogPeriodBlock :
    find_excel_serial_double analogPeriodBlock 256 = some (0, 40000) := by
  rw [find_serial_eq_some_iff]
  refine ⟨by decide, ?_, by norm_num, by norm_num, by omega⟩
  norm_num [f64at, analogPeriodBlock, serialBytes, decodeF64, leNat]

lemma ev_f32_0 : decode_float32 [] 1 = [] := by simp [decode_float32]

lemma ev_f32_1 : decode_float32 [0] 1 = [] := by simp [decode_float32]

lemma ev_f32_2 : decode_float32 [0, 0] 1 = [] := by simp [decode_float32]

lemma ev_f32_3 : decode_float32 [0, 0, 0] 1 = [] := by simp [decode_float32]

lemma ev_f64_0 : decode_float64 [] 1 = [] := by simp [decode_float64]

lemma ev_f64_1 : decode_float64 [0] 1 = [] := by simp [decode_float64]

lemma ev_f64_2 : decode_float64 [0, 0] 1 = [] := by simp [decode_float64]

lemma ev_f64_3 : decode_float64 [0, 0, 0] 1 = [] := by simp [decode_float64]

lemma ev_i16_0 : decode_int16_scaled [] 1 1 = [] := decode_int16_nil 1 1

lemma ev_i16_1 : decode_int16_scaled [0] 1 1 = [] := decode_int16_one 1 1

lemma ev_i16_2 : decode_int16_scaled [0, 0] 1 1 = [some 0] := by
  norm_num [decode_int16_scaled, take_exact, decodeI16, leNat,
    show List.range 1 = [0] from by decide]

lemma ev_i16_3 : decode_int16_scaled [0, 0, 0] 1 1 = [some 0] := by
  norm_num [decode_int16_scaled, take_exact, decodeI16, leNat,
    show List.range 1 = [0] from by decide]

lemma read_varint_zero_head (rest : List ℕ) :
    read_varint_leb128 (0 :: rest) 0 0 = (0, rest, true) := by
  simp [read_varint_leb128]

lemma decode_varint_zero_head (rest : List ℕ) :
    decode_varint_delta (0 :: rest) 1 1 = [0] := by
  rw [decode_varint_delta, dvd_go]
  rw [dif_neg (by
    push_neg
    refine ⟨one_ne_zero, by simp, ?_⟩
    simp only [List.length_cons]
    omega)]
  simp only [read_varint_zero_head]
  norm_num [zigzag_decode]
  rw [dvd_go]
  norm_num

lemma ev_var_0 : decode_varint_delta [] 1 1 = [] := decode_varint_nil 1 1

lemma ev_var_1 : decode_varint_delta [0] 1 1 = [0] := decode_varint_zero_head []

lemma ev_var_2 : decode_varint_delta [0, 0] 1 1 = [0] := decode_varint_zero_head [0]

lemma ev_var_3 : decode_varint_delta [0, 0, 0] 1 1 = [0] := decode_varint_zero_head [0, 0]

lemma dropA0 : analogPeriodBlock.drop (12 + 0) = [0, 0, 0] := by decide

lemma dropA1 : analogPeriodBlock.drop (12 + 1) = [0, 0] := by decide

lemma dropA2 : analogPeriodBlock.drop (12 + 2) = [0] := by decide

lemma dropA3 : analogPeriodBlock.drop (12 + 3) = [] := by decide

lemma dropA4 : analogPeriodBlock.drop (12 + 4) = [] := by decide

lemma dropA5 : analogPeriodBlock.drop (12 + 5) = [] := by decide

lemma dropA6 : analogPeriodBlock.drop (12 + 6) = [] := by decide

lemma dropA7 : analogPeriodBlock.drop (12 + 7) = [] := by decide

lemma dropA8 : analogPeriodBlock.drop (12 + 8) = [] := by decide

lemma hall_analog :
    ∀ x ∈ scanCandidates analogPeriodBlock 12 1 1, x.2.1 = [] ∨ x.2.1 = [some 0] := by
  intro x hx
  rw [scanCandidates, List.mem_flatMap] at hx
  obtain ⟨k, hk9, hx⟩ := hx
  rw [List.mem_range] at hk9
  dsimp only at hx
  interval_cases k <;>
    simp only [dropA0, dropA1, dropA2, dropA3, dropA4, dropA5, dropA6, dropA7,
      dropA8, List.mem_cons] at hx <;>
    rcases hx with h | h | h | h | h <;>
    first
      | (subst h
         simp [ev_f32_0, ev_f32_1, ev_f32_2, ev_f32_3, ev_f64_0, ev_f64_1, ev_f64_2,
           ev_f64_3, ev_i16_0, ev_i16_1, ev_i16_2, ev_i16_3, ev_var_0, ev_var_1,
           ev_var_2, ev_var_3])
      | simp at h

lemma score_singleton_zero_le :
    plausibility_score [some (0 : ℚ)] 1 ≤ plausibility_score [] 1 := by
  have h1 := score_replicate_zero 1 (le_refl 1)
  simp only [List.replicate_one] at h1
  rw [h1, score_nil]
  have := abs_nonneg (Real.log (1 + 1e-9))
  linarith

lemma hsel_analog :
    selectBest 1 (scanCandidates analogPeriodBlock 12 1 1) =
      some (plausibility_score [] 1, (CodecName.float32, [], 0)) := by
  obtain ⟨ch, ct, hg⟩ :=
    List.exists_cons_of_ne_nil (scanCandidates_ne_nil analogPeriodBlock 12 1 1)
  have hhead : (scanCandidates analogPeriodBlock 12 1 1).head? =
      some (CodecName.float32, decode_float32 (analogPeriodBlock.drop (12 + 0)) 1, 0) := by
    rw [scanCandidates, show List.range 9 = 0 :: List.range' 1 8 from by decide,
        List.flatMap_cons]
    rfl
  rw [hg] at hhead
  simp only [List.head?_cons, Option.some.injEq] at hhead
  have hch : ch = (CodecName.float32, [], 0) := by
    rw [hhead, dropA0, ev_f32_3]
  unfold selectBest
  rw [hg, List.foldl_cons, hch, selectStep_none]
  apply select_fold_stay
  intro y hy
  have hymem : y ∈ scanCandidates analogPeriodBlock 12 1 1 := by
    rw [hg]
    exact List.mem_cons_of_mem ch hy
  rcases hall_analog y hymem with h | h
  · rw [h]
  · rw [h]
    exact score_singleton_zero_le

/-- C1 counterexample: an analog block with a found header, period 1000 ms,
expected count 1 and three zero payload bytes.  The grid's first candidate
(float32, skip 0) is empty and scores `-2.0`; every non-empty candidate is
a constant `[0.0]` scoring about `-5`; the strict-improvement fold keeps
the empty candidate, so the block is signalled `NoPlausibleCodec` even
though non-empty candidates exist in the grid — refuting both "picks the
single highest-scoring non-empty candidate" and the claimed
"NoPlausibleCodec iff every candidate is empty". -/
theorem c1_counterexample :
    decode_analog_block analogPeriodBlock 0 1500 1 = AnalogOutcome.noPlausibleCodec ∧
    ∃ c ∈ scanCandidates analogPeriodBlock 12 1 1, c.2.1 ≠ [] := by
  constructor
  · unfold decode_analog_block
    rw [find_analogPeriodBlock]
    dsimp only
    rw [if_neg (by decide)]
    simp only [Nat.zero_add, sub_zero]
    rw [show leNat ((analogPeriodBlock.drop 8).take 4) = 1000 from by decide]
    rw [show expSamples 1500 1000 = 1 from by decide]
    rw [show effectiveScale 1 = 1 from by norm_num [effectiveScale]]
    rw [hsel_analog]
    dsimp only
    rw [if_pos rfl]
  · refine ⟨(CodecName.int16_scaled,
        decode_int16_scaled (analogPeriodBlock.drop (12 + 0)) 1 1, 0), ?_, ?_⟩
    · rw [scanCandidates, List.mem_flatMap]
      refine ⟨0, by simp, ?_⟩
      dsimp only
      simp only [List.mem_cons]
      tauto
    · rw [dropA0, ev_i16_3]
      simp

/-- Witness for C1 (amended): the characterization applied to the concrete
analog block, with the header-found and non-truncation hypotheses
discharged. -/
theorem c1_selection_keeps_first_highest_witness :
    decode_analog_block analogPeriodBlock 0 1500 1 = AnalogOutcome.noPlausibleCodec ↔
      ∃ s c, selectBest (expSamples (1500 - 0)
          (leNat ((analogPeriodBlock.drop (0 + 8)).take 4)))
          (scanCandidates analogPeriodBlock (0 + 12)
            (expSamples (1500 - 0) (leNat ((analogPeriodBlock.drop (0 + 8)).take 4)))
            (effectiveScale 1)) = some (s, c) ∧ c.2.1 = [] :=
  c1_selection_keeps_first_highest.2 analogPeriodBlock 0 1500 1 0 40000
    find_analogPeriodBlock (by decide)

/-- C10: in the bulk analog exporter with a forced codec and a found
header, exactly one candidate is decoded — at skip 0 (`payload =
b[header_end:]`), with no alignment search and no call to the scorer — and
the outcome is always `emitted` (never an unmatched report); an empty
forced decode silently emits zero rows.  In auto mode, by contrast, the
block is skipped with a report exactly when the selection's winning
candidate is empty. -/
theorem c10_forced_codec_single_decode :
    (∀ (fc : ForcedCodec) (b : List ℕ) (tb te : ℤ) (scale : ℚ) (i : ℕ) (v : ℚ),
      find_excel_serial_double b 256 = some (i, v) → ¬ (b.length < i + 8 + 4) →
        export_analog_block (some fc) b tb te scale =
          AnalogOutcome.emitted (emitRows tb te
            ((leNat ((b.drop (i + 8)).take 4) : ℕ) : ℤ)
            (decodeForced fc (b.drop (i + 12))
              (expSamples (te - tb) (leNat ((b.drop (i + 8)).take 4))) scale))) ∧
    (∀ (tb te period : ℤ), emitRows tb te period ([] : List (Option ℚ)) = []) ∧
    (∀ (b : List ℕ) (tb te : ℤ) (scale : ℚ) (i : ℕ) (v : ℚ),
      find_excel_serial_double b 256 = some (i, v) → ¬ (b.length < i + 8 + 4) →
      (export_analog_block none b tb te scale = AnalogOutcome.noPlausibleCodec ↔
        ∃ s c, selectBest (expSamples (te - tb) (leNat ((b.drop (i + 8)).take 4)))
            (scanCandidates b (i + 12)
              (expSamples (te - tb) (leNat ((b.drop (i + 8)).take 4))) scale) =
          some (s, c) ∧ c.2.1 = [])) := by
  refine ⟨?_, fun tb te period => rfl, ?_⟩
  · intro fc b tb te scale i v hfind htrunc
    unfold export_analog_block
    rw [hfind]
    dsimp only
    rw [if_neg htrunc]
  · intro b tb te scale i v hfind htrunc
    unfold export_analog_block
    rw [hfind]
    dsimp only
    rw [if_neg htrunc]
    obtain ⟨ch, ct, hgrid⟩ := List.exists_cons_of_ne_nil
      (scanCandidates_ne_nil b (i + 12)
        (expSamples (te - tb) (leNat ((b.drop (i + 8)).take 4))) scale)
    rw [hgrid]
    obtain ⟨s, c, hsel⟩ :=
      selectBest_cons_isSome (expSamples (te - tb) (leNat ((b.drop (i + 8)).take 4))) ch ct
    rw [hsel]
    dsimp only
    by_cases hc : c.2.1 = []
    · rw [if_pos hc]
      exact iff_of_true rfl ⟨s, c, rfl, hc⟩
    · rw [if_neg hc]
      refine iff_of_false (by simp) ?_
      rintro ⟨s', c', hsel', hc'⟩
      have h2 : c = c' := congrArg Prod.snd (Option.some.inj hsel')
      rw [← h2] at hc'
      exact hc hc'

/-- Witness for C10: the forced-f32 equation and the auto-mode skip
characterization applied at the concrete analog block. -/
theorem c10_forced_codec_single_decode_witness :
    export_analog_block (some ForcedCodec.f32) analogPeriodBlock 0 1500 1 =
      AnalogOutcome.emitted (emitRows 0 1500
        ((leNat ((analogPeriodBlock.drop (0 + 8)).take 4) : ℕ) : ℤ)
        (decodeForced ForcedCodec.f32 (analogPeriodBlock.drop (0 + 12))
          (expSamples (1500 - 0) (leNat ((analogPeriodBlock.drop (0 + 8)).take 4))) 1)) :=
  c10_forced_codec_single_decode.1 ForcedCodec.f32 analogPeriodBlock 0 1500 1 0 40000
    find_analogPeriodBlock (by decide)

end WinCC
